import Mathlib

/-!
Shallow embedding of
`Unreal/CarlaUE4/Plugins/Carla/Source/Carla/Vehicle/WheeledVehicleMovementComponentNW.cpp`.

Floats are modelled as rationals (`ℚ`); division by zero yields `0` in `ℚ`,
which stands in for the degenerate numeric output of the source.  The curve
container (`FRichCurve`) and the PhysX default parameter blocks live outside
this repository, so they are modelled from the spec where noted; everything
else is translated directly from the source file.
-/

namespace CarlaNW

/-- Modelled from the spec: one sample of the curve-storage collaborator
(`FRichCurveKey`, not in src/): a (time, value) pair. -/
structure FRichCurveKey where
  Time : ℚ
  Value : ℚ
deriving DecidableEq, Repr

/-- Modelled from the spec: the curve-storage collaborator is an ordered
sequence of keys, iterated in insertion/key order. -/
abbrev RichCurve := List FRichCurveKey

/-- Modelled from the spec: `add-key` operation of the curve-storage
collaborator (`FRichCurve::AddKey`, not in src/): appends a key, preserving
insertion order. -/
def AddKey (c : RichCurve) (t v : ℚ) : RichCurve :=
  c ++ [⟨t, v⟩]

/-- Modelled from the spec: `update-or-add-by-key` operation of the
curve-storage collaborator (`FRichCurve::UpdateOrAddKey`, not in src/):
updates the first key with the given time if one exists, else adds the key. -/
def UpdateOrAddKey : RichCurve → ℚ → ℚ → RichCurve
  | [], t, v => [⟨t, v⟩]
  | k :: rest, t, v =>
      if k.Time = t then ⟨k.Time, v⟩ :: rest else k :: UpdateOrAddKey rest t v

/-- FMath::Clamp, as in the engine helper used by the source:
`(X < Min) ? Min : (X < Max) ? X : Max`. -/
def Clamp (x lo hi : ℚ) : ℚ :=
  if x < lo then lo else if x < hi then x else hi

/-- Modelled from the spec: rational stand-in for π in the RPM/angular-velocity
conversion helpers (not in src/); no claim depends on its value. -/
def piQ : ℚ := 355 / 113

/-- Modelled from the spec: `OmegaToRPM` unit-conversion helper (not in src/),
`RPM = omega * 30 / π`. -/
def OmegaToRPM (w : ℚ) : ℚ := w * 30 / piQ

/-- Modelled from the spec: `RPMToOmega` unit-conversion helper (not in src/),
`omega = RPM * π / 30`. -/
def RPMToOmega (rpm : ℚ) : ℚ := rpm * piQ / 30

/-- Modelled from the spec: `M2ToCm2` user-unit to simulator-unit linear scale
factor (not in src/). -/
def M2ToCm2 (x : ℚ) : ℚ := x * 10000

/-- `FVehicleNWGearData`: one forward gear entry. -/
structure FVehicleNWGearData where
  Ratio : ℚ
  DownRatio : ℚ
  UpRatio : ℚ
deriving DecidableEq, Repr

/-- `FVehicleNWTransmissionData`. -/
structure FVehicleNWTransmissionData where
  ClutchStrength : ℚ
  GearSwitchTime : ℚ
  ReverseGearRatio : ℚ
  FinalRatio : ℚ
  NeutralGearUpRatio : ℚ
  GearAutoBoxLatency : ℚ
  bUseGearAutoBox : Bool
  ForwardGears : List FVehicleNWGearData
deriving DecidableEq, Repr

/-- `FVehicleNWEngineData`. -/
structure FVehicleNWEngineData where
  MOI : ℚ
  MaxRPM : ℚ
  DampingRateFullThrottle : ℚ
  DampingRateZeroThrottleClutchEngaged : ℚ
  DampingRateZeroThrottleClutchDisengaged : ℚ
  TorqueCurve : RichCurve
deriving DecidableEq, Repr

/-- `FVehicleNWWheelDifferentialData`: per-wheel driven flag. -/
structure FVehicleNWWheelDifferentialData where
  bDriven : Bool
deriving DecidableEq, Repr

/-- The state of `UWheeledVehicleMovementComponentNW` relevant to this file:
engine, transmission, steering curve, differential and wheel setups, idle
brake input. -/
structure UWheeledVehicleMovementComponentNW where
  EngineSetup : FVehicleNWEngineData
  TransmissionSetup : FVehicleNWTransmissionData
  SteeringCurve : RichCurve
  DifferentialSetup : List FVehicleNWWheelDifferentialData
  WheelSetupsNum : ℕ
  IdleBrakeInput : ℚ
deriving DecidableEq, Repr

/-- `FVehicleNWEngineData::FindPeakTorque`: running maximum over the torque
keys, starting from `0.0f`. -/
def FVehicleNWEngineData.FindPeakTorque (e : FVehicleNWEngineData) : ℚ :=
  e.TorqueCurve.foldl (fun PeakTorque Key => max PeakTorque Key.Value) 0

/-- `PxVehicleEngineData`: the simulator-side engine parameter block. The
torque curve is the simulator's normalized pair list (`mTorqueCurve`). -/
structure PxVehicleEngineData where
  mMOI : ℚ
  mMaxOmega : ℚ
  mPeakTorque : ℚ
  mDampingRateFullThrottle : ℚ
  mDampingRateZeroThrottleClutchEngaged : ℚ
  mDampingRateZeroThrottleClutchDisengaged : ℚ
  mTorqueCurve : List (ℚ × ℚ)
deriving DecidableEq, Repr

/-- Modelled from the spec: the simulator's fixed maximum torque-curve-key
capacity, `PxVehicleEngineData::eMAX_NB_ENGINE_TORQUE_CURVE_ENTRIES`
(8 in the simulator library, which is not in src/). -/
def eMaxNbEngineTorqueCurveEntries : ℕ := 8

/-- `GetVehicleEngineSetup`: forward translation of the engine setup into the
simulator's normalized parameter block.  The loop
`for KeyIdx in [0, min(Num, eMAX))` with `addPair` is rendered as a fold over
`take eMaxNbEngineTorqueCurveEntries`. -/
def GetVehicleEngineSetup (Setup : FVehicleNWEngineData) : PxVehicleEngineData :=
  let PeakTorque := Setup.FindPeakTorque
  { mMOI := M2ToCm2 Setup.MOI
    mMaxOmega := RPMToOmega Setup.MaxRPM
    mPeakTorque := M2ToCm2 PeakTorque
    mDampingRateFullThrottle := M2ToCm2 Setup.DampingRateFullThrottle
    mDampingRateZeroThrottleClutchEngaged :=
      M2ToCm2 Setup.DampingRateZeroThrottleClutchEngaged
    mDampingRateZeroThrottleClutchDisengaged :=
      M2ToCm2 Setup.DampingRateZeroThrottleClutchDisengaged
    mTorqueCurve :=
      ((Setup.TorqueCurve.take eMaxNbEngineTorqueCurveEntries).foldl
        (fun cur Key =>
          cur ++ [(Clamp (Key.Time / Setup.MaxRPM) 0 1, Key.Value / PeakTorque)])
        []) }

/-- The `SteeringCurve` branch of `PostEditChangeProperty`: iterate over a
copy of the keys and update each key at its own time with the clamped value. -/
def clampSteeringKeys (c : RichCurve) : RichCurve :=
  c.foldl (fun cur Key => UpdateOrAddKey cur Key.Time (Clamp Key.Value 0 1)) c

/-- Replace the forward gear list of a config (the raw user edit that
precedes a gear edit-notification). -/
def setForwardGears (c : UWheeledVehicleMovementComponentNW)
    (gs : List FVehicleNWGearData) : UWheeledVehicleMovementComponentNW :=
  { c with TransmissionSetup := { c.TransmissionSetup with ForwardGears := gs } }

/-- Body of the `DownRatio` loop:
`GearData.DownRatio = FMath::Min(GearData.DownRatio, GearData.UpRatio)`. -/
def clampGearDown (GearData : FVehicleNWGearData) : FVehicleNWGearData :=
  { GearData with DownRatio := min GearData.DownRatio GearData.UpRatio }

/-- Body of the `UpRatio` loop:
`GearData.UpRatio = FMath::Max(GearData.DownRatio, GearData.UpRatio)`. -/
def clampGearUp (GearData : FVehicleNWGearData) : FVehicleNWGearData :=
  { GearData with UpRatio := max GearData.DownRatio GearData.UpRatio }

/-- `UWheeledVehicleMovementComponentNW::PostEditChangeProperty`: the
edit-validation pass, dispatching on the changed property's name. -/
def PostEditChangeProperty (c : UWheeledVehicleMovementComponentNW)
    (PropertyName : String) : UWheeledVehicleMovementComponentNW :=
  if PropertyName = "DownRatio" then
    { c with TransmissionSetup :=
        { c.TransmissionSetup with ForwardGears :=
            (c.TransmissionSetup.ForwardGears.map clampGearDown) } }
  else if PropertyName = "UpRatio" then
    { c with TransmissionSetup :=
        { c.TransmissionSetup with ForwardGears :=
            (c.TransmissionSetup.ForwardGears.map clampGearUp) } }
  else if PropertyName = "SteeringCurve" then
    { c with SteeringCurve := clampSteeringKeys c.SteeringCurve }
  else c

/-- One step of an interactive gear-editing session: the user replaces the
forward-gear list, then the edit-validation pass runs for the changed field. -/
def applyGearEdits (c : UWheeledVehicleMovementComponentNW)
    (events : List (List FVehicleNWGearData × String)) :
    UWheeledVehicleMovementComponentNW :=
  events.foldl (fun acc e => PostEditChangeProperty (setForwardGears acc e.1) e.2) c

/-- `PxVehicleClutchData` (simulator default block, fields used by the
constructor). -/
structure PxVehicleClutchData where
  mStrength : ℚ
deriving Repr

/-- `PxVehicleGearsData` (simulator default block): ratio table indexed by
gear id, number of ratios, switch time, final ratio. -/
structure PxVehicleGearsData where
  mSwitchTime : ℚ
  mFinalRatio : ℚ
  mNbRatios : ℕ
  mRatios : ℕ → ℚ

/-- Modelled from the spec: the simulator's gear ids for reverse, neutral and
the first forward gear (`PxVehicleGearsData::eREVERSE`, `eNEUTRAL`,
`eFIRST`; the library defining them is not in src/). -/
def eREVERSE : ℕ := 0

/-- Modelled from the spec: the simulator's neutral gear id. -/
def eNEUTRAL : ℕ := 1

/-- Modelled from the spec: the simulator's first-forward-gear id. -/
def eFIRST : ℕ := 2

/-- `PxVehicleAutoBoxData` (simulator default block): up/down shift ratio
tables indexed by gear id, and the autobox latency. -/
structure PxVehicleAutoBoxData where
  mUpRatios : ℕ → ℚ
  mDownRatios : ℕ → ℚ
  mLatency : ℚ

/-- `UWheeledVehicleMovementComponentNW` constructor: seeds the config from
the simulator's compiled-in default parameter blocks (which are outside
src/, hence taken as arguments). -/
def constructNW (DefEngineData : PxVehicleEngineData)
    (DefClutchData : PxVehicleClutchData) (DefGearSetup : PxVehicleGearsData)
    (DefAutoBoxSetup : PxVehicleAutoBoxData) :
    UWheeledVehicleMovementComponentNW :=
  let MaxRPM := OmegaToRPM DefEngineData.mMaxOmega
  { EngineSetup :=
      { MOI := DefEngineData.mMOI
        MaxRPM := MaxRPM
        DampingRateFullThrottle := DefEngineData.mDampingRateFullThrottle
        DampingRateZeroThrottleClutchEngaged :=
          DefEngineData.mDampingRateZeroThrottleClutchEngaged
        DampingRateZeroThrottleClutchDisengaged :=
          DefEngineData.mDampingRateZeroThrottleClutchDisengaged
        TorqueCurve :=
          (DefEngineData.mTorqueCurve.foldl
            (fun cur p =>
              AddKey cur (p.1 * MaxRPM) (p.2 * DefEngineData.mPeakTorque))
            []) }
    TransmissionSetup :=
      { ClutchStrength := DefClutchData.mStrength
        GearSwitchTime := DefGearSetup.mSwitchTime
        ReverseGearRatio := DefGearSetup.mRatios eREVERSE
        FinalRatio := DefGearSetup.mFinalRatio
        NeutralGearUpRatio := DefAutoBoxSetup.mUpRatios eNEUTRAL
        GearAutoBoxLatency := DefAutoBoxSetup.mLatency
        bUseGearAutoBox := true
        ForwardGears :=
          ((List.range' eFIRST (DefGearSetup.mNbRatios - eFIRST)).foldl
            (fun gears i =>
              gears ++
                [{ Ratio := DefGearSetup.mRatios i
                   DownRatio := DefAutoBoxSetup.mDownRatios i
                   UpRatio := DefAutoBoxSetup.mUpRatios i }])
            []) }
    SteeringCurve :=
      AddKey (AddKey (AddKey (AddKey [] 0 1) 20 (9 / 10)) 60 (4 / 5)) 120 (7 / 10)
    DifferentialSetup := List.replicate 4 ⟨false⟩
    WheelSetupsNum := 4
    IdleBrakeInput := 10 }

/-- The spec's description of the peak torque: the plain maximum of the
torque values over all curve samples, `0` for the empty curve. -/
def specPeakTorque : RichCurve → ℚ
  | [] => 0
  | k :: rest => rest.foldl (fun acc j => max acc j.Value) k.Value

/-- Value of the last key with time `a`, if any. -/
def lastVal (a : ℚ) : RichCurve → Option ℚ
  | [] => none
  | k :: rest =>
      match lastVal a rest with
      | some v => some v
      | none => if k.Time = a then some k.Value else none

/-- Value of the first key with time `a`, if any. -/
def firstVal (a : ℚ) : RichCurve → Option ℚ
  | [] => none
  | k :: rest => if k.Time = a then some k.Value else firstVal a rest

/-- Value written to the first key with time `a` by the clamping pass when the
iterated copy is `L`: the clamp of the last iterated value at `a`, or the
original value `b` when `a` never occurs in `L`. -/
def headVal (a b : ℚ) (L : RichCurve) : ℚ :=
  match lastVal a L with
  | none => b
  | some v => Clamp v 0 1

/-- The steering clamping fold, with the iterated copy `L` made explicit. -/
def upsertFold (L c : RichCurve) : RichCurve :=
  L.foldl (fun cur Key => UpdateOrAddKey cur Key.Time (Clamp Key.Value 0 1)) c

/-- Structural normal form of the clamping pass: position by position, the
first key of each time receives the clamped last iterated value at that time,
and later keys of an already-seen time are left alone. -/
def steerNorm : RichCurve → RichCurve → RichCurve
  | [], _ => []
  | k :: rest, L =>
      ⟨k.Time, headVal k.Time k.Value L⟩ ::
        steerNorm rest (L.filter (fun j => decide (j.Time ≠ k.Time)))

/-- Number of keys in a curve with time `t`. -/
def timesCount (t : ℚ) (L : RichCurve) : ℕ :=
  L.countP (fun j => decide (j.Time = t))

/-- The spec's concrete scenario: `maxRotationSpeed = 6000`, torque samples
`[(0,0), (3000,300), (6000,100)]`. -/
def engineProfileScenario : FVehicleNWEngineData :=
  { MOI := 1, MaxRPM := 6000, DampingRateFullThrottle := 0,
    DampingRateZeroThrottleClutchEngaged := 0,
    DampingRateZeroThrottleClutchDisengaged := 0,
    TorqueCurve := [⟨0, 0⟩, ⟨3000, 300⟩, ⟨6000, 100⟩] }

/-- An engine whose only torque sample has a negative torque value. -/
def negTorqueEngine : FVehicleNWEngineData :=
  { MOI := 0, MaxRPM := 1000, DampingRateFullThrottle := 0,
    DampingRateZeroThrottleClutchEngaged := 0,
    DampingRateZeroThrottleClutchDisengaged := 0,
    TorqueCurve := [⟨0, -5⟩] }

/-- An engine with nine torque samples, one more than the simulator's
torque-curve capacity. -/
def nineKeyEngine : FVehicleNWEngineData :=
  { MOI := 0, MaxRPM := 9000, DampingRateFullThrottle := 0,
    DampingRateZeroThrottleClutchEngaged := 0,
    DampingRateZeroThrottleClutchDisengaged := 0,
    TorqueCurve := [⟨0, 10⟩, ⟨1000, 20⟩, ⟨2000, 30⟩, ⟨3000, 40⟩, ⟨4000, 50⟩,
      ⟨5000, 60⟩, ⟨6000, 70⟩, ⟨7000, 80⟩, ⟨8000, 90⟩] }

/-- A concrete transmission whose first gear has its downshift threshold
above its upshift threshold. -/
def baseTransmission : FVehicleNWTransmissionData :=
  { ClutchStrength := 10, GearSwitchTime := 1, ReverseGearRatio := 4,
    FinalRatio := 4, NeutralGearUpRatio := 1, GearAutoBoxLatency := 2,
    bUseGearAutoBox := true,
    ForwardGears := [⟨4, 2, 1⟩, ⟨2, 0, 3⟩] }

/-- An engine with an empty torque curve. -/
def emptyCurveEngine : FVehicleNWEngineData :=
  { MOI := 0, MaxRPM := 1000, DampingRateFullThrottle := 0,
    DampingRateZeroThrottleClutchEngaged := 0,
    DampingRateZeroThrottleClutchDisengaged := 0,
    TorqueCurve := [] }

/-- A concrete config used to instantiate the universally quantified
theorems; its steering curve has distinct times and out-of-range values. -/
def baseConfig : UWheeledVehicleMovementComponentNW :=
  { EngineSetup := engineProfileScenario
    TransmissionSetup := baseTransmission
    SteeringCurve := [⟨0, 2⟩, ⟨5, -1⟩]
    DifferentialSetup := List.replicate 4 ⟨true⟩
    WheelSetupsNum := 4
    IdleBrakeInput := 10 }

/-- A config whose steering curve holds two samples at the same time, the
second one out of range. -/
def dupSteeringConfig : UWheeledVehicleMovementComponentNW :=
  { baseConfig with SteeringCurve := [⟨0, 2⟩, ⟨0, 3⟩] }

section Helpers

/-- A fold that appends one image per element is a `map`. -/
theorem foldl_snoc_map {α β : Type} (f : α → β) :
    ∀ (L : List α) (acc : List β),
      L.foldl (fun cur x => cur ++ [f x]) acc = acc ++ L.map f := by
  intro L
  induction L with
  | nil => simp
  | cons a L ih => intro acc; simp [ih]

theorem Clamp_nonneg (v : ℚ) : 0 ≤ Clamp v 0 1 := by
  unfold Clamp; split_ifs <;> linarith

theorem Clamp_le_one (v : ℚ) : Clamp v 0 1 ≤ 1 := by
  unfold Clamp; split_ifs <;> linarith

theorem Clamp_idem (v : ℚ) : Clamp (Clamp v 0 1) 0 1 = Clamp v 0 1 := by
  unfold Clamp
  split_ifs <;> first | rfl | linarith

/-- Folding `max` starting from `max a b` pulls `a` out of the fold. -/
theorem foldl_max_max :
    ∀ (L : RichCurve) (a b : ℚ),
      L.foldl (fun acc j => max acc j.Value) (max a b)
        = max a (L.foldl (fun acc j => max acc j.Value) b) := by
  intro L
  induction L with
  | nil => intro a b; rfl
  | cons k L ih =>
      intro a b
      simp only [List.foldl]
      rw [max_assoc, ih]

/-- The fold's accumulator is a lower bound of the result. -/
theorem le_foldl_max :
    ∀ (L : RichCurve) (a : ℚ), a ≤ L.foldl (fun acc j => max acc j.Value) a := by
  intro L
  induction L with
  | nil => intro a; exact le_refl a
  | cons k L ih =>
      intro a
      simp only [List.foldl]
      exact le_trans (le_max_left a k.Value) (ih (max a k.Value))

/-- Every listed value is bounded by the `max` fold. -/
theorem mem_le_foldl_max :
    ∀ (L : RichCurve) (a : ℚ) (k : FRichCurveKey), k ∈ L →
      k.Value ≤ L.foldl (fun acc j => max acc j.Value) a := by
  intro L
  induction L with
  | nil => intro a k hk; cases hk
  | cons j L ih =>
      intro a k hk
      simp only [List.foldl]
      rcases List.mem_cons.mp hk with h | h
      · subst h
        exact le_trans (le_max_right a k.Value) (le_foldl_max L (max a k.Value))
      · exact ih (max a j.Value) k h

/-- `FindPeakTorque` is the `max` of `0` and the spec's plain sample maximum. -/
theorem findPeakTorque_eq_max_zero_spec (e : FVehicleNWEngineData) :
    e.FindPeakTorque = max 0 (specPeakTorque e.TorqueCurve) := by
  unfold FVehicleNWEngineData.FindPeakTorque specPeakTorque
  cases e.TorqueCurve with
  | nil => simp
  | cons k rest =>
      simp only [List.foldl]
      exact foldl_max_max rest 0 k.Value

/-- Every sample value is bounded by the spec's plain maximum. -/
theorem mem_le_specPeakTorque (c : RichCurve) (k : FRichCurveKey) (hk : k ∈ c) :
    k.Value ≤ specPeakTorque c := by
  cases c with
  | nil => cases hk
  | cons j rest =>
      unfold specPeakTorque
      rcases List.mem_cons.mp hk with h | h
      · subst h; exact le_foldl_max rest k.Value
      · exact mem_le_foldl_max rest j.Value k h

end Helpers

section SteerLemmas

theorem clampSteeringKeys_eq_upsertFold (c : RichCurve) :
    clampSteeringKeys c = upsertFold c c := rfl

theorem UpdateOrAddKey_cons (k : FRichCurveKey) (L : RichCurve) (t v : ℚ) :
    UpdateOrAddKey (k :: L) t v =
      if k.Time = t then ⟨k.Time, v⟩ :: L else k :: UpdateOrAddKey L t v := rfl

theorem lastVal_cons (k : FRichCurveKey) (a : ℚ) (L : RichCurve) :
    lastVal a (k :: L) =
      match lastVal a L with
      | some v => some v
      | none => if k.Time = a then some k.Value else none := rfl

theorem lastVal_cons_of_ne {k : FRichCurveKey} {a : ℚ} (h : k.Time ≠ a)
    (L : RichCurve) : lastVal a (k :: L) = lastVal a L := by
  rw [lastVal_cons]
  cases hL : lastVal a L with
  | some v => rfl
  | none => simp [h]

theorem lastVal_cons_of_some {k : FRichCurveKey} {a v : ℚ} {L : RichCurve}
    (h : lastVal a L = some v) : lastVal a (k :: L) = some v := by
  rw [lastVal_cons, h]

theorem lastVal_headKey_cons_of_ne {a t : ℚ} (h : a ≠ t) (b : ℚ) (S : RichCurve) :
    lastVal t (⟨a, b⟩ :: S) = lastVal t S :=
  lastVal_cons_of_ne h S

theorem lastVal_filter_self (a : ℚ) :
    ∀ L : RichCurve, lastVal a (L.filter (fun j => decide (j.Time ≠ a))) = none := by
  intro L
  induction L with
  | nil => rfl
  | cons k L ih =>
      by_cases hk : k.Time = a
      · simpa [List.filter_cons, hk] using ih
      · rw [List.filter_cons, if_pos (by simpa using hk), lastVal_cons_of_ne hk]
        exact ih

theorem lastVal_filter_ne {a t : ℚ} (h : t ≠ a) :
    ∀ L : RichCurve,
      lastVal t (L.filter (fun j => decide (j.Time ≠ a))) = lastVal t L := by
  intro L
  induction L with
  | nil => rfl
  | cons k L ih =>
      by_cases hk : k.Time = a
      · have hkt : k.Time ≠ t := by rw [hk]; exact fun hh => h hh.symm
        rw [List.filter_cons, if_neg (by simpa using hk), ih, lastVal_cons_of_ne hkt]
      · rw [List.filter_cons, if_pos (by simpa using hk)]
        rw [lastVal_cons, lastVal_cons, ih]

theorem lastVal_eq_none_of_not_mem {t : ℚ} :
    ∀ {L : RichCurve}, t ∉ L.map (fun j => j.Time) → lastVal t L = none := by
  intro L
  induction L with
  | nil => intro _; rfl
  | cons k L ih =>
      intro h
      have hk : k.Time ≠ t := fun hh => h (by simp [hh])
      rw [lastVal_cons_of_ne hk]
      exact ih fun hh => h (by simpa using Or.inr (by simpa using hh))

theorem lastVal_isSome_of_mem {t : ℚ} :
    ∀ {L : RichCurve}, t ∈ L.map (fun j => j.Time) → ∃ v, lastVal t L = some v := by
  intro L
  induction L with
  | nil => intro h; cases h
  | cons k L ih =>
      intro h
      by_cases hrest : t ∈ L.map (fun j => j.Time)
      · obtain ⟨v, hv⟩ := ih hrest
        exact ⟨v, lastVal_cons_of_some hv⟩
      · have hk : k.Time = t := by
          rcases by simpa using h with hh | ⟨j, hj, hjt⟩
          · exact hh.symm
          · exact absurd (List.mem_map.mpr ⟨j, hj, hjt⟩) hrest
        refine ⟨k.Value, ?_⟩
        rw [lastVal_cons, lastVal_eq_none_of_not_mem hrest, if_pos hk]

theorem firstVal_cons (k : FRichCurveKey) (a : ℚ) (L : RichCurve) :
    firstVal a (k :: L) =
      if k.Time = a then some k.Value else firstVal a L := rfl

theorem firstVal_some_mem {t w : ℚ} :
    ∀ {L : RichCurve}, firstVal t L = some w → t ∈ L.map (fun j => j.Time) := by
  intro L
  induction L with
  | nil => intro h; cases h
  | cons k L ih =>
      intro h
      rw [firstVal_cons] at h
      by_cases hk : k.Time = t
      · simp [hk]
      · rw [if_neg hk] at h
        simpa using Or.inr (by simpa using ih h)

theorem firstVal_isSome_of_mem {t : ℚ} :
    ∀ {L : RichCurve}, t ∈ L.map (fun j => j.Time) → ∃ w, firstVal t L = some w := by
  intro L
  induction L with
  | nil => intro h; cases h
  | cons k L ih =>
      intro h
      by_cases hk : k.Time = t
      · exact ⟨k.Value, by rw [firstVal_cons, if_pos hk]⟩
      · have : t ∈ L.map (fun j => j.Time) := by
          rcases by simpa using h with hh | ⟨j, hj, hjt⟩
          · exact absurd hh.symm hk
          · exact List.mem_map.mpr ⟨j, hj, hjt⟩
        obtain ⟨w, hw⟩ := ih this
        exact ⟨w, by rw [firstVal_cons, if_neg hk, hw]⟩

theorem headVal_cons_eq {k : FRichCurveKey} {a : ℚ} (h : k.Time = a)
    (b : ℚ) (L : RichCurve) :
    headVal a b (k :: L) = headVal a (Clamp k.Value 0 1) L := by
  unfold headVal
  rw [lastVal_cons]
  cases hv : lastVal a L with
  | some v => rfl
  | none => simp [h]

theorem headVal_cons_ne {k : FRichCurveKey} {a : ℚ} (h : k.Time ≠ a)
    (b : ℚ) (L : RichCurve) :
    headVal a b (k :: L) = headVal a b L := by
  unfold headVal
  rw [lastVal_cons_of_ne h]

/-- One step of the clamping fold, pushed under the head of the curve: the
head key receives `headVal` of the iterated copy, and the tail sees the copy
with the head's time filtered out. -/
theorem upsertFold_cons :
    ∀ (L : RichCurve) (k₀ : FRichCurveKey) (rest : RichCurve),
      upsertFold L (k₀ :: rest) =
        ⟨k₀.Time, headVal k₀.Time k₀.Value L⟩ ::
          upsertFold (L.filter (fun j => decide (j.Time ≠ k₀.Time))) rest := by
  intro L
  induction L with
  | nil => intro k₀ rest; rfl
  | cons k L ih =>
      intro k₀ rest
      by_cases h : k₀.Time = k.Time
      · have hstep : upsertFold (k :: L) (k₀ :: rest)
            = upsertFold L (⟨k₀.Time, Clamp k.Value 0 1⟩ :: rest) := by
          show upsertFold L (UpdateOrAddKey (k₀ :: rest) k.Time (Clamp k.Value 0 1)) = _
          rw [UpdateOrAddKey_cons, if_pos h]
        rw [hstep, ih ⟨k₀.Time, Clamp k.Value 0 1⟩ rest]
        rw [show (k :: L).filter (fun j => decide (j.Time ≠ k₀.Time))
              = L.filter (fun j => decide (j.Time ≠ k₀.Time)) from by
            rw [List.filter_cons, if_neg (by simpa using h.symm)]]
        rw [headVal_cons_eq h.symm]
      · have hstep : upsertFold (k :: L) (k₀ :: rest)
            = upsertFold L (k₀ :: UpdateOrAddKey rest k.Time (Clamp k.Value 0 1)) := by
          show upsertFold L (UpdateOrAddKey (k₀ :: rest) k.Time (Clamp k.Value 0 1)) = _
          rw [UpdateOrAddKey_cons, if_neg h]
        rw [hstep, ih k₀ (UpdateOrAddKey rest k.Time (Clamp k.Value 0 1))]
        rw [show (k :: L).filter (fun j => decide (j.Time ≠ k₀.Time))
              = k :: L.filter (fun j => decide (j.Time ≠ k₀.Time)) from by
            rw [List.filter_cons, if_pos (by simpa using fun hh => h hh.symm)]]
        rw [headVal_cons_ne (fun hh => h hh.symm)]
        rfl

/-- The clamping fold equals the structural normal form, provided every
iterated time occurs in the curve being updated. -/
theorem upsertFold_eq_steerNorm :
    ∀ (c L : RichCurve), (∀ k ∈ L, k.Time ∈ c.map (fun j => j.Time)) →
      upsertFold L c = steerNorm c L := by
  intro c
  induction c with
  | nil =>
      intro L h
      have hL : L = [] := by
        cases L with
        | nil => rfl
        | cons k L => exact absurd (h k (by simp)) (by simp)
      subst hL; rfl
  | cons kh rest ih =>
      intro L h
      rw [upsertFold_cons]
      show _ :: _ = _ :: _
      congr 1
      apply ih
      intro k hk
      have hkL := List.mem_filter.mp hk
      have hmem := h k hkL.1
      have hne : k.Time ≠ kh.Time := by simpa using hkL.2
      rcases by simpa using hmem with hh | ⟨j, hj, hjt⟩
      · exact absurd hh hne
      · exact List.mem_map.mpr ⟨j, hj, hjt⟩

theorem clampSteeringKeys_eq_steerNorm (c : RichCurve) :
    clampSteeringKeys c = steerNorm c c :=
  upsertFold_eq_steerNorm c c fun _ hk => List.mem_map_of_mem (fun j => j.Time) hk

/-- The clamping pass preserves the times, position by position. -/
theorem steerNorm_map_time :
    ∀ (c L : RichCurve),
      (steerNorm c L).map (fun j => j.Time) = c.map (fun j => j.Time) := by
  intro c
  induction c with
  | nil => intro L; rfl
  | cons kh rest ih =>
      intro L
      show _ :: _ = _ :: _
      rw [ih]

theorem firstVal_steerNorm_some {t b : ℚ} :
    ∀ (c L : RichCurve), firstVal t c = some b →
      firstVal t (steerNorm c L) = some (headVal t b L) := by
  intro c
  induction c with
  | nil => intro L h; cases h
  | cons kh rest ih =>
      intro L h
      rw [firstVal_cons] at h
      by_cases hk : kh.Time = t
      · rw [if_pos hk] at h
        cases h
        show firstVal t (⟨kh.Time, headVal kh.Time kh.Value L⟩ :: _) = _
        rw [firstVal_cons, if_pos hk, hk]
      · rw [if_neg hk] at h
        show firstVal t (⟨kh.Time, headVal kh.Time kh.Value L⟩ :: _) = _
        rw [firstVal_cons, if_neg hk, ih _ h]
        congr 1
        unfold headVal
        rw [lastVal_filter_ne (fun hh => hk hh.symm)]

/-- Keys whose time never occurs in the iterated copy keep their values. -/
theorem lastVal_steerNorm_of_none {t : ℚ} :
    ∀ (c L : RichCurve), lastVal t L = none →
      lastVal t (steerNorm c L) = lastVal t c := by
  intro c
  induction c with
  | nil => intro L _; rfl
  | cons kh rest ih =>
      intro L h
      by_cases hk : kh.Time = t
      · have hhead : headVal kh.Time kh.Value L = kh.Value := by
          unfold headVal; rw [hk, h]
        have hfil : lastVal t (L.filter (fun j => decide (j.Time ≠ kh.Time))) = none := by
          rw [hk]; exact lastVal_filter_self t L
        show lastVal t (⟨kh.Time, headVal kh.Time kh.Value L⟩ :: _) = _
        rw [hhead, lastVal_cons, lastVal_cons, ih _ hfil]
      · have hfil : lastVal t (L.filter (fun j => decide (j.Time ≠ kh.Time))) = none := by
          rw [lastVal_filter_ne (fun hh => hk hh.symm)]; exact h
        show lastVal t (⟨kh.Time, headVal kh.Time kh.Value L⟩ :: _) = _
        rw [lastVal_headKey_cons_of_ne hk, lastVal_cons_of_ne hk, ih _ hfil]

theorem timesCount_cons (t : ℚ) (k : FRichCurveKey) (L : RichCurve) :
    timesCount t (k :: L) =
      timesCount t L + if k.Time = t then 1 else 0 := by
  unfold timesCount
  rw [List.countP_cons]
  by_cases hk : k.Time = t <;> simp [hk]

theorem timesCount_pos_iff_mem (t : ℚ) (L : RichCurve) :
    0 < timesCount t L ↔ t ∈ L.map (fun j => j.Time) := by
  unfold timesCount
  rw [List.countP_pos_iff]
  constructor
  · rintro ⟨j, hj, hjt⟩
    exact List.mem_map.mpr ⟨j, hj, by simpa using hjt⟩
  · rintro h
    rcases List.mem_map.mp h with ⟨j, hj, hjt⟩
    exact ⟨j, hj, by simpa using hjt⟩

theorem timesCount_eq_of_map_time_eq {c d : RichCurve}
    (h : c.map (fun j => j.Time) = d.map (fun j => j.Time)) (t : ℚ) :
    timesCount t c = timesCount t d := by
  unfold timesCount
  have hc := List.countP_map (fun x : ℚ => decide (x = t)) (fun j : FRichCurveKey => j.Time) c
  have hd := List.countP_map (fun x : ℚ => decide (x = t)) (fun j : FRichCurveKey => j.Time) d
  simp only [Function.comp_def] at hc hd
  rw [← hc, ← hd, h]

/-- A time occurring at least twice keeps its last value across the pass. -/
theorem lastVal_steerNorm_of_two {t : ℚ} :
    ∀ (c L : RichCurve), 2 ≤ timesCount t c →
      lastVal t (steerNorm c L) = lastVal t c := by
  intro c
  induction c with
  | nil => intro L h; simp [timesCount] at h
  | cons kh rest ih =>
      intro L h
      rw [timesCount_cons] at h
      by_cases hk : kh.Time = t
      · rw [if_pos hk] at h
        have hpos : 0 < timesCount t rest := by omega
        have hmem := (timesCount_pos_iff_mem t rest).mp hpos
        obtain ⟨v, hv⟩ := lastVal_isSome_of_mem hmem
        have hfil : lastVal t (L.filter (fun j => decide (j.Time ≠ kh.Time))) = none := by
          rw [hk]; exact lastVal_filter_self t L
        have htail : lastVal t (steerNorm rest
            (L.filter (fun j => decide (j.Time ≠ kh.Time)))) = some v := by
          rw [lastVal_steerNorm_of_none rest _ hfil]; exact hv
        show lastVal t (⟨kh.Time, headVal kh.Time kh.Value L⟩ :: _) = _
        rw [lastVal_cons_of_some htail, lastVal_cons_of_some hv]
      · rw [if_neg hk] at h
        show lastVal t (⟨kh.Time, headVal kh.Time kh.Value L⟩ :: _) = _
        rw [lastVal_headKey_cons_of_ne hk, lastVal_cons_of_ne hk]
        exact ih _ (by omega)

theorem timesCount_eq_zero_not_mem {t : ℚ} {L : RichCurve}
    (h : timesCount t L = 0) : t ∉ L.map (fun j => j.Time) := by
  intro hmem
  have := (timesCount_pos_iff_mem t L).mpr hmem
  omega

/-- A time occurring exactly once has equal first and last values. -/
theorem lastVal_eq_firstVal_of_count_one {t : ℚ} :
    ∀ {L : RichCurve}, timesCount t L = 1 → lastVal t L = firstVal t L := by
  intro L
  induction L with
  | nil => intro _; rfl
  | cons k rest ih =>
      intro h
      rw [timesCount_cons] at h
      by_cases hk : k.Time = t
      · rw [if_pos hk] at h
        have hz : timesCount t rest = 0 := by omega
        have hnone : lastVal t rest = none :=
          lastVal_eq_none_of_not_mem (timesCount_eq_zero_not_mem hz)
        rw [lastVal_cons, hnone]
        simp [hk, firstVal_cons]
      · rw [if_neg hk] at h
        rw [lastVal_cons_of_ne hk, firstVal_cons, if_neg hk]
        exact ih (by omega)

/-- Fixed-point criterion: the pass leaves a curve unchanged when, for every
time, the first value at that time is already the clamp of the last iterated
value at that time. -/
theorem steerNorm_eq_self :
    ∀ (c M : RichCurve),
      (∀ t v w, firstVal t c = some w → lastVal t M = some v →
        Clamp v 0 1 = w) →
      steerNorm c M = c := by
  intro c
  induction c with
  | nil => intro M _; rfl
  | cons kh rest ih =>
      intro M h
      show _ :: _ = _ :: _
      have hhead : headVal kh.Time kh.Value M = kh.Value := by
        unfold headVal
        cases hv : lastVal kh.Time M with
        | none => rfl
        | some v =>
            exact h kh.Time v kh.Value (by rw [firstVal_cons, if_pos rfl]) hv
      have htail : steerNorm rest (M.filter (fun j => decide (j.Time ≠ kh.Time))) = rest := by
        apply ih
        intro t v w hf hl
        by_cases ht : t = kh.Time
        · rw [ht, lastVal_filter_self] at hl
          cases hl
        · rw [lastVal_filter_ne ht] at hl
          exact h t v w (by rw [firstVal_cons, if_neg (fun hh => ht hh.symm)]; exact hf) hl
      rw [hhead, htail]

/-- The steering clamping pass is idempotent, for every curve, duplicate
times included. -/
theorem clampSteeringKeys_idem (c : RichCurve) :
    clampSteeringKeys (clampSteeringKeys c) = clampSteeringKeys c := by
  rw [clampSteeringKeys_eq_steerNorm c, clampSteeringKeys_eq_steerNorm (steerNorm c c)]
  apply steerNorm_eq_self
  intro t v w hf hl
  have htc1 : t ∈ (steerNorm c c).map (fun j => j.Time) := firstVal_some_mem hf
  have hmap : (steerNorm c c).map (fun j => j.Time) = c.map (fun j => j.Time) :=
    steerNorm_map_time c c
  have htc : t ∈ c.map (fun j => j.Time) := hmap ▸ htc1
  obtain ⟨b, hb⟩ := firstVal_isSome_of_mem htc
  obtain ⟨u, hu⟩ := lastVal_isSome_of_mem htc
  have hw : firstVal t (steerNorm c c) = some (headVal t b c) :=
    firstVal_steerNorm_some c c hb
  have hw2 : w = headVal t b c := by
    rw [hf] at hw
    exact Option.some_inj.mp hw
  have hhead : headVal t b c = Clamp u 0 1 := by
    unfold headVal; rw [hu]
  have hcnt : 0 < timesCount t c := (timesCount_pos_iff_mem t c).mpr htc
  rcases Nat.lt_or_ge (timesCount t c) 2 with h2 | h2
  · have h1 : timesCount t c = 1 := by omega
    have hcnt1 : timesCount t (steerNorm c c) = 1 := by
      rw [timesCount_eq_of_map_time_eq hmap]; exact h1
    have heq := lastVal_eq_firstVal_of_count_one hcnt1
    rw [heq, hf] at hl
    have hvw : v = w := (Option.some_inj.mp hl).symm
    rw [hvw, hw2, hhead, Clamp_idem]
  · have heq := lastVal_steerNorm_of_two c c h2
    rw [heq, hu] at hl
    have hvu : u = v := Option.some_inj.mp hl
    rw [← hvu, ← hhead, hw2]

/-- On a curve with pairwise-distinct times the pass is a plain pointwise
clamping map. -/
theorem steerNorm_self_of_nodup :
    ∀ c : RichCurve, (c.map (fun j => j.Time)).Nodup →
      steerNorm c c = c.map (fun k => ⟨k.Time, Clamp k.Value 0 1⟩) := by
  intro c
  induction c with
  | nil => intro _; rfl
  | cons kh rest ih =>
      intro hnd
      rw [List.map_cons] at hnd
      have hnd' := List.nodup_cons.mp hnd
      have hnotmem : kh.Time ∉ rest.map (fun j => j.Time) := hnd'.1
      have hhead : headVal kh.Time kh.Value (kh :: rest) = Clamp kh.Value 0 1 := by
        unfold headVal
        rw [lastVal_cons, lastVal_eq_none_of_not_mem hnotmem, if_pos rfl]
      have hfil : (kh :: rest).filter (fun j => decide (j.Time ≠ kh.Time)) = rest := by
        rw [List.filter_cons, if_neg (by simp)]
        apply List.filter_eq_self.mpr
        intro j hj
        simp only [decide_eq_true_eq]
        intro hh
        exact hnotmem (hh ▸ List.mem_map_of_mem (fun j => j.Time) hj)
      show _ :: _ = _ :: _
      rw [hhead, hfil, ih hnd'.2]

end SteerLemmas

section EditPassLemmas

theorem postEdit_down_eq (c : UWheeledVehicleMovementComponentNW) :
    PostEditChangeProperty c "DownRatio" =
      { c with TransmissionSetup :=
          { c.TransmissionSetup with ForwardGears :=
              (c.TransmissionSetup.ForwardGears.map clampGearDown) } } := by
  unfold PostEditChangeProperty
  rw [if_pos rfl]

theorem postEdit_up_eq (c : UWheeledVehicleMovementComponentNW) :
    PostEditChangeProperty c "UpRatio" =
      { c with TransmissionSetup :=
          { c.TransmissionSetup with ForwardGears :=
              (c.TransmissionSetup.ForwardGears.map clampGearUp) } } := by
  unfold PostEditChangeProperty
  rw [if_neg (by decide), if_pos rfl]

theorem postEdit_steer_eq (c : UWheeledVehicleMovementComponentNW) :
    PostEditChangeProperty c "SteeringCurve" =
      { c with SteeringCurve := clampSteeringKeys c.SteeringCurve } := by
  unfold PostEditChangeProperty
  rw [if_neg (by decide), if_neg (by decide), if_pos rfl]

theorem postEdit_other_eq (c : UWheeledVehicleMovementComponentNW)
    (name : String) (h1 : name ≠ "DownRatio") (h2 : name ≠ "UpRatio")
    (h3 : name ≠ "SteeringCurve") : PostEditChangeProperty c name = c := by
  unfold PostEditChangeProperty
  rw [if_neg h1, if_neg h2, if_neg h3]

theorem clampGearDown_le (g : FVehicleNWGearData) :
    (clampGearDown g).DownRatio ≤ (clampGearDown g).UpRatio :=
  min_le_right g.DownRatio g.UpRatio

theorem clampGearUp_le (g : FVehicleNWGearData) :
    (clampGearUp g).DownRatio ≤ (clampGearUp g).UpRatio :=
  le_max_left g.DownRatio g.UpRatio

theorem clampGearDown_idem (g : FVehicleNWGearData) :
    clampGearDown (clampGearDown g) = clampGearDown g := by
  unfold clampGearDown
  simp [min_assoc]

theorem clampGearUp_idem (g : FVehicleNWGearData) :
    clampGearUp (clampGearUp g) = clampGearUp g := by
  unfold clampGearUp
  simp [← max_assoc]

/-- After a `DownRatio` or `UpRatio` edit-notification, every forward gear
satisfies the autobox threshold invariant. -/
theorem gears_invariant_single (c : UWheeledVehicleMovementComponentNW)
    (name : String) (h : name = "DownRatio" ∨ name = "UpRatio") :
    ∀ g ∈ (PostEditChangeProperty c name).TransmissionSetup.ForwardGears,
      g.DownRatio ≤ g.UpRatio := by
  rcases h with h | h <;> subst h <;> intro g hg
  · rw [postEdit_down_eq] at hg
    rcases List.mem_map.mp hg with ⟨g₀, _, rfl⟩
    exact clampGearDown_le g₀
  · rw [postEdit_up_eq] at hg
    rcases List.mem_map.mp hg with ⟨g₀, _, rfl⟩
    exact clampGearUp_le g₀

/-- The edit-validation pass is idempotent for every changed-field name. -/
theorem postEdit_idem (c : UWheeledVehicleMovementComponentNW) (name : String) :
    PostEditChangeProperty (PostEditChangeProperty c name) name =
      PostEditChangeProperty c name := by
  by_cases h1 : name = "DownRatio"
  · subst h1
    rw [postEdit_down_eq c, postEdit_down_eq]
    simp only [List.map_map]
    congr 1
    congr 1
    exact List.map_congr_left fun g _ => clampGearDown_idem g
  · by_cases h2 : name = "UpRatio"
    · subst h2
      rw [postEdit_up_eq c, postEdit_up_eq]
      simp only [List.map_map]
      congr 1
      congr 1
      exact List.map_congr_left fun g _ => clampGearUp_idem g
    · by_cases h3 : name = "SteeringCurve"
      · subst h3
        rw [postEdit_steer_eq c, postEdit_steer_eq]
        simp [clampSteeringKeys_idem]
      · rw [postEdit_other_eq _ name h1 h2 h3, postEdit_other_eq _ name h1 h2 h3]

end EditPassLemmas

section TranslationLemmas

/-- The emitted simulator torque curve is the first-capacity prefix of the
user curve, normalized sample by sample. -/
theorem engine_mTorqueCurve_eq_map (s : FVehicleNWEngineData) :
    (GetVehicleEngineSetup s).mTorqueCurve =
      (s.TorqueCurve.take eMaxNbEngineTorqueCurveEntries).map
        (fun k => (Clamp (k.Time / s.MaxRPM) 0 1, k.Value / s.FindPeakTorque)) := by
  unfold GetVehicleEngineSetup
  exact foldl_snoc_map _ _ []

/-- The constructor's torque curve denormalizes each simulator default
sample on both axes. -/
theorem constructNW_torqueCurve_eq_map (eng : PxVehicleEngineData)
    (clutch : PxVehicleClutchData) (gears : PxVehicleGearsData)
    (autobox : PxVehicleAutoBoxData) :
    (constructNW eng clutch gears autobox).EngineSetup.TorqueCurve =
      eng.mTorqueCurve.map
        (fun p => ⟨p.1 * OmegaToRPM eng.mMaxOmega, p.2 * eng.mPeakTorque⟩) := by
  unfold constructNW AddKey
  exact foldl_snoc_map _ _ []

end TranslationLemmas

/-- After a nonempty editing session whose notifications all concern the gear
shift ratios, every forward gear satisfies the threshold invariant. -/
theorem gears_invariant_after_edit_list :
    ∀ (events : List (List FVehicleNWGearData × String))
      (c : UWheeledVehicleMovementComponentNW),
      events ≠ [] →
      (∀ e ∈ events, e.2 = "DownRatio" ∨ e.2 = "UpRatio") →
      ∀ g ∈ (applyGearEdits c events).TransmissionSetup.ForwardGears,
        g.DownRatio ≤ g.UpRatio := by
  intro events
  induction events with
  | nil => intro c h _; exact absurd rfl h
  | cons e es ih =>
      intro c _ hall
      have hstep : applyGearEdits c (e :: es)
          = applyGearEdits (PostEditChangeProperty (setForwardGears c e.1) e.2) es := rfl
      rw [hstep]
      cases es with
      | nil => exact gears_invariant_single _ e.2 (hall e (by simp))
      | cons e2 es2 =>
          exact ih _ (by simp) fun x hx => hall x (List.mem_cons_of_mem e hx)

/-- C1: a `DownRatio` notification sets every forward gear's `DownRatio` to
`min(DownRatio, UpRatio)`; an `UpRatio` notification sets every forward
gear's `UpRatio` to `max(DownRatio, UpRatio)`; and after any nonempty
sequence of gear edits each followed by a `DownRatio` or `UpRatio`
notification, every forward gear satisfies `DownRatio ≤ UpRatio`. -/
theorem C1_gear_invariant :
    (∀ c : UWheeledVehicleMovementComponentNW,
      (PostEditChangeProperty c "DownRatio").TransmissionSetup.ForwardGears =
        c.TransmissionSetup.ForwardGears.map
          (fun g => { g with DownRatio := min g.DownRatio g.UpRatio })) ∧
    (∀ c : UWheeledVehicleMovementComponentNW,
      (PostEditChangeProperty c "UpRatio").TransmissionSetup.ForwardGears =
        c.TransmissionSetup.ForwardGears.map
          (fun g => { g with UpRatio := max g.DownRatio g.UpRatio })) ∧
    (∀ (c : UWheeledVehicleMovementComponentNW)
       (events : List (List FVehicleNWGearData × String)),
      events ≠ [] →
      (∀ e ∈ events, e.2 = "DownRatio" ∨ e.2 = "UpRatio") →
      ∀ g ∈ (applyGearEdits c events).TransmissionSetup.ForwardGears,
        g.DownRatio ≤ g.UpRatio) := by
  refine ⟨?_, ?_, fun c events h1 h2 => gears_invariant_after_edit_list events c h1 h2⟩
  · intro c
    rw [postEdit_down_eq]
    rfl
  · intro c
    rw [postEdit_up_eq]
    rfl

/-- C1 witness: a gear edited to downshift threshold `2` above upshift
threshold `1` is clamped back so that the invariant holds. -/
theorem C1_gear_invariant_witness :
    (⟨4, 1, 1⟩ : FVehicleNWGearData).DownRatio ≤
      (⟨4, 1, 1⟩ : FVehicleNWGearData).UpRatio :=
  C1_gear_invariant.2.2 baseConfig [([⟨4, 2, 1⟩], "DownRatio")]
    (by decide) (by decide) ⟨4, 1, 1⟩
    (by
      have h : (applyGearEdits baseConfig
            [([⟨4, 2, 1⟩], "DownRatio")]).TransmissionSetup.ForwardGears
          = [⟨4, 1, 1⟩] := by decide
      rw [h]
      exact List.mem_singleton.mpr rfl)

/-- C9: the edit-validation pass is idempotent for every changed-field name,
including `DownRatio`, `UpRatio`, `SteeringCurve` and any other name. -/
theorem C9_postEdit_idempotent :
    ∀ (c : UWheeledVehicleMovementComponentNW) (name : String),
      PostEditChangeProperty (PostEditChangeProperty c name) name =
        PostEditChangeProperty c name :=
  postEdit_idem

/-- C3 counterexample: on a steering curve with two samples at the same time,
the second sample's value `3` survives the pass, outside `[0,1]`; the claim's
range guarantee fails for this config. -/
theorem C3_steering_counterexample :
    ¬ (∀ k ∈ (PostEditChangeProperty dupSteeringConfig "SteeringCurve").SteeringCurve,
        0 ≤ k.Value ∧ k.Value ≤ 1) := by decide

/-- C3 amended: after a `SteeringCurve` edit-notification the list of sample
times and the sample count are always unchanged, and provided the sample
times are pairwise distinct, every sample's value lies in `[0,1]`. -/
theorem C3_steering_clamp_amended :
    ∀ c : UWheeledVehicleMovementComponentNW,
      ((PostEditChangeProperty c "SteeringCurve").SteeringCurve.map (fun j => j.Time)
          = c.SteeringCurve.map (fun j => j.Time)) ∧
      ((PostEditChangeProperty c "SteeringCurve").SteeringCurve.length
          = c.SteeringCurve.length) ∧
      ((c.SteeringCurve.map (fun j => j.Time)).Nodup →
        ∀ k ∈ (PostEditChangeProperty c "SteeringCurve").SteeringCurve,
          0 ≤ k.Value ∧ k.Value ≤ 1) := by
  intro c
  have hsteer : (PostEditChangeProperty c "SteeringCurve").SteeringCurve
      = steerNorm c.SteeringCurve c.SteeringCurve := by
    rw [postEdit_steer_eq]
    exact clampSteeringKeys_eq_steerNorm c.SteeringCurve
  refine ⟨?_, ?_, ?_⟩
  · rw [hsteer]
    exact steerNorm_map_time _ _
  · rw [hsteer]
    have h := congrArg List.length (steerNorm_map_time c.SteeringCurve c.SteeringCurve)
    simpa using h
  · intro hnd k hk
    rw [hsteer, steerNorm_self_of_nodup _ hnd] at hk
    rcases List.mem_map.mp hk with ⟨k₀, _, rfl⟩
    exact ⟨Clamp_nonneg _, Clamp_le_one _⟩

/-- C3 witness: on a distinct-time curve with values `2` and `-1`, the
clamped sample `(0, 1)` is in range. -/
theorem C3_steering_clamp_amended_witness :
    0 ≤ (⟨0, 1⟩ : FRichCurveKey).Value ∧ (⟨0, 1⟩ : FRichCurveKey).Value ≤ 1 :=
  (C3_steering_clamp_amended baseConfig).2.2 (by decide) ⟨0, 1⟩ (by decide)

/-- C2: for the scenario engine (max rotation speed 6000, torque samples
(0,0), (3000,300), (6000,100)) the translation computes peak torque 300 and
emits [(0,0), (1/2,1), (1,1/3)]; in general every emitted sample is
(clamp(rpm / maxRotationSpeed, 0, 1), torque / peakTorque) of some input
sample. -/
theorem C2_engine_scenario :
    (engineProfileScenario.FindPeakTorque = 300 ∧
      (GetVehicleEngineSetup engineProfileScenario).mTorqueCurve
        = [(0, 0), (1/2, 1), (1, 1/3)]) ∧
    (∀ (s : FVehicleNWEngineData) (p : ℚ × ℚ),
      p ∈ (GetVehicleEngineSetup s).mTorqueCurve →
      ∃ k ∈ s.TorqueCurve,
        p = (Clamp (k.Time / s.MaxRPM) 0 1, k.Value / s.FindPeakTorque)) := by
  constructor
  · refine ⟨by decide, ?_⟩
    have hpk : engineProfileScenario.FindPeakTorque = 300 := by decide
    rw [engine_mTorqueCurve_eq_map, hpk]
    show List.map _ (List.take 8 [(⟨0, 0⟩ : FRichCurveKey), ⟨3000, 300⟩, ⟨6000, 100⟩]) = _
    norm_num [Clamp, engineProfileScenario]
  · intro s p hp
    rw [engine_mTorqueCurve_eq_map] at hp
    rcases List.mem_map.mp hp with ⟨k, hk, rfl⟩
    exact ⟨k, List.take_subset _ _ hk, rfl⟩

/-- C2 witness: the first emitted sample (0,0) is the normalization of the
first input sample. -/
theorem C2_engine_scenario_witness :
    ∃ k ∈ engineProfileScenario.TorqueCurve,
      ((0:ℚ), (0:ℚ)) = (Clamp (k.Time / engineProfileScenario.MaxRPM) 0 1,
        k.Value / engineProfileScenario.FindPeakTorque) :=
  C2_engine_scenario.2 engineProfileScenario (0, 0)
    (by rw [C2_engine_scenario.1.2]; exact List.mem_cons_self _ _)

/-- C4 counterexample: on the one-sample curve with torque value −5,
FindPeakTorque returns 0, not the plain sample maximum −5. -/
theorem C4_peak_counterexample :
    negTorqueEngine.FindPeakTorque ≠ specPeakTorque negTorqueEngine.TorqueCurve := by
  decide

/-- C4 amended: FindPeakTorque returns the maximum of the plain sample
maximum and 0 (hence 0 for the empty curve); whenever some sample value is
nonnegative this equals the plain maximum over all samples. -/
theorem C4_peak_amended :
    ∀ e : FVehicleNWEngineData,
      e.FindPeakTorque = max (specPeakTorque e.TorqueCurve) 0 ∧
      ((∃ k ∈ e.TorqueCurve, 0 ≤ k.Value) →
        e.FindPeakTorque = specPeakTorque e.TorqueCurve) := by
  intro e
  constructor
  · rw [findPeakTorque_eq_max_zero_spec, max_comm]
  · rintro ⟨k, hk, hkv⟩
    rw [findPeakTorque_eq_max_zero_spec]
    exact max_eq_right (le_trans hkv (mem_le_specPeakTorque _ k hk))

/-- C4 witness: on the scenario curve, which has a nonnegative sample, the
code's result agrees with the plain sample maximum. -/
theorem C4_peak_amended_witness :
    engineProfileScenario.FindPeakTorque
      = specPeakTorque engineProfileScenario.TorqueCurve :=
  (C4_peak_amended engineProfileScenario).2 ⟨⟨0, 0⟩, List.mem_cons_self _ _, le_refl 0⟩

/-- C5: when the torque curve has more samples than the simulator capacity,
exactly capacity-many samples are emitted — the first capacity-many, in
their original order. -/
theorem C5_truncation (s : FVehicleNWEngineData)
    (h : eMaxNbEngineTorqueCurveEntries < s.TorqueCurve.length) :
    (GetVehicleEngineSetup s).mTorqueCurve.length = eMaxNbEngineTorqueCurveEntries ∧
    (GetVehicleEngineSetup s).mTorqueCurve =
      (s.TorqueCurve.take eMaxNbEngineTorqueCurveEntries).map
        (fun k => (Clamp (k.Time / s.MaxRPM) 0 1, k.Value / s.FindPeakTorque)) := by
  refine ⟨?_, engine_mTorqueCurve_eq_map s⟩
  rw [engine_mTorqueCurve_eq_map, List.length_map, List.length_take]
  omega

/-- C5 witness: a nine-sample curve, one over the capacity of eight,
translates to exactly eight samples. -/
theorem C5_truncation_witness :
    eMaxNbEngineTorqueCurveEntries < nineKeyEngine.TorqueCurve.length ∧
    (GetVehicleEngineSetup nineKeyEngine).mTorqueCurve.length
      = eMaxNbEngineTorqueCurveEntries :=
  ⟨by decide, (C5_truncation nineKeyEngine (by decide)).1⟩

/-- C6: with nonzero peak torque the emitted y-coordinates are exactly
invertible (their divisor is nonzero), and with nonzero max RPM likewise for
the x-ratio; an empty curve forces peak torque 0, and a zero divisor
degenerates the corresponding output coordinate to 0. -/
theorem C6_division_guards :
    (∀ s : FVehicleNWEngineData, s.FindPeakTorque ≠ 0 →
      ∀ p ∈ (GetVehicleEngineSetup s).mTorqueCurve,
        ∃ k ∈ s.TorqueCurve, p.2 * s.FindPeakTorque = k.Value) ∧
    (∀ s : FVehicleNWEngineData, s.MaxRPM ≠ 0 →
      ∀ p ∈ (GetVehicleEngineSetup s).mTorqueCurve,
        ∃ k ∈ s.TorqueCurve,
          p.1 = Clamp (k.Time / s.MaxRPM) 0 1 ∧
          k.Time / s.MaxRPM * s.MaxRPM = k.Time) ∧
    (∀ s : FVehicleNWEngineData, s.TorqueCurve = [] → s.FindPeakTorque = 0) ∧
    (∀ s : FVehicleNWEngineData, s.MaxRPM = 0 →
      ∀ p ∈ (GetVehicleEngineSetup s).mTorqueCurve, p.1 = 0) ∧
    (∀ s : FVehicleNWEngineData, s.FindPeakTorque = 0 →
      ∀ p ∈ (GetVehicleEngineSetup s).mTorqueCurve, p.2 = 0) := by
  refine ⟨?_, ?_, ?_, ?_, ?_⟩
  · intro s hpk p hp
    rw [engine_mTorqueCurve_eq_map] at hp
    rcases List.mem_map.mp hp with ⟨k, hk, rfl⟩
    exact ⟨k, List.take_subset _ _ hk, div_mul_cancel₀ k.Value hpk⟩
  · intro s hmax p hp
    rw [engine_mTorqueCurve_eq_map] at hp
    rcases List.mem_map.mp hp with ⟨k, hk, rfl⟩
    exact ⟨k, List.take_subset _ _ hk, rfl, div_mul_cancel₀ k.Time hmax⟩
  · intro s h
    unfold FVehicleNWEngineData.FindPeakTorque
    rw [h]
    rfl
  · intro s h p hp
    rw [engine_mTorqueCurve_eq_map] at hp
    rcases List.mem_map.mp hp with ⟨k, _, rfl⟩
    show Clamp (k.Time / s.MaxRPM) 0 1 = 0
    rw [h, div_zero]
    decide
  · intro s h p hp
    rw [engine_mTorqueCurve_eq_map] at hp
    rcases List.mem_map.mp hp with ⟨k, _, rfl⟩
    show k.Value / s.FindPeakTorque = 0
    rw [h, div_zero]

/-- C6 witness: the empty curve yields peak torque 0, and on the scenario
engine (nonzero peak torque, nonzero max RPM) the emitted y times the peak
recovers the first sample's torque value. -/
theorem C6_division_guards_witness :
    emptyCurveEngine.FindPeakTorque = 0 ∧
    ∃ k ∈ engineProfileScenario.TorqueCurve,
      ((0:ℚ), (0:ℚ)).2 * engineProfileScenario.FindPeakTorque = k.Value :=
  ⟨C6_division_guards.2.2.1 emptyCurveEngine rfl,
   C6_division_guards.1 engineProfileScenario (by decide) (0, 0)
     (by
       rw [engine_mTorqueCurve_eq_map]
       refine List.mem_map.mpr ⟨⟨0, 0⟩, by decide, ?_⟩
       show (Clamp ((0:ℚ) / engineProfileScenario.MaxRPM) 0 1,
             (0:ℚ) / engineProfileScenario.FindPeakTorque) = ((0:ℚ), (0:ℚ))
       rw [zero_div, zero_div]
       decide)⟩

/-- C7: the constructor denormalizes each simulator default torque sample to
(xNorm * maxRotationSpeed, yNorm * peakTorque), where maxRotationSpeed is
the RPM conversion of the default max angular velocity; one key per sample,
in input order. -/
theorem C7_constructor_torque_curve :
    ∀ (eng : PxVehicleEngineData) (clutch : PxVehicleClutchData)
      (gears : PxVehicleGearsData) (autobox : PxVehicleAutoBoxData),
      (constructNW eng clutch gears autobox).EngineSetup.MaxRPM
        = OmegaToRPM eng.mMaxOmega ∧
      (constructNW eng clutch gears autobox).EngineSetup.TorqueCurve
        = eng.mTorqueCurve.map
            (fun p => ⟨p.1 * OmegaToRPM eng.mMaxOmega, p.2 * eng.mPeakTorque⟩) :=
  fun eng clutch gears autobox =>
    ⟨rfl, constructNW_torqueCurve_eq_map eng clutch gears autobox⟩

/-- C8: regardless of the simulator defaults, the constructor produces four
wheels and differential entries, idle brake input 10, and the four fixed
steering control points (0,1), (20,0.9), (60,0.8), (120,0.7). -/
theorem C8_constructor_fixed_fields :
    ∀ (eng : PxVehicleEngineData) (clutch : PxVehicleClutchData)
      (gears : PxVehicleGearsData) (autobox : PxVehicleAutoBoxData),
      (constructNW eng clutch gears autobox).WheelSetupsNum = 4 ∧
      (constructNW eng clutch gears autobox).DifferentialSetup.length = 4 ∧
      (constructNW eng clutch gears autobox).IdleBrakeInput = 10 ∧
      (constructNW eng clutch gears autobox).SteeringCurve
        = [⟨0, 1⟩, ⟨20, 9/10⟩, ⟨60, 4/5⟩, ⟨120, 7/10⟩] :=
  fun _ _ _ _ => ⟨rfl, rfl, rfl, rfl⟩

/-- C10: FindPeakTorque is always nonnegative (its running maximum starts at
0), bounds every sample value, and equals max(0, plain sample maximum) — not
the plain maximum itself. -/
theorem C10_peak_nonneg :
    ∀ e : FVehicleNWEngineData,
      0 ≤ e.FindPeakTorque ∧
      (∀ k ∈ e.TorqueCurve, k.Value ≤ e.FindPeakTorque) ∧
      e.FindPeakTorque = max 0 (specPeakTorque e.TorqueCurve) := by
  intro e
  refine ⟨?_, ?_, findPeakTorque_eq_max_zero_spec e⟩
  · rw [findPeakTorque_eq_max_zero_spec]
    exact le_max_left _ _
  · intro k hk
    rw [findPeakTorque_eq_max_zero_spec]
    exact le_trans (mem_le_specPeakTorque _ k hk) (le_max_right _ _)

/-- C10 witness: on the all-negative one-sample curve the sample value −5 is
bounded by the result, which is nonnegative. -/
theorem C10_peak_nonneg_witness :
    (⟨0, -5⟩ : FRichCurveKey).Value ≤ negTorqueEngine.FindPeakTorque :=
  (C10_peak_nonneg negTorqueEngine).2.1 ⟨0, -5⟩ (List.mem_singleton.mpr rfl)

end CarlaNW
